import Mathlib

/-!
Verification of the substitution-cipher tool (src/main.rs).

The program parses a line-oriented mapping specification into two character
maps, `encrypt_map` and `decrypt_map`, and applies them character by
character to a text.  We embed the core (`Cipher::from_file` minus the file
I/O, `Cipher::encrypt`, `Cipher::decrypt`) shallowly: a text is a
`List Char`, a Rust `HashMap<char, char>` is an association list
`List (Char × Char)` (the parser never inserts a duplicate key, so lookup
agrees with the hash map), and the fallible constructor returns `Except`.
-/

namespace Main

/-- Equality of `Except` values is decidable when both component types have
decidable equality; used to evaluate the parser on concrete inputs. -/
instance {ε α : Type} [DecidableEq ε] [DecidableEq α] : DecidableEq (Except ε α) := fun
  | .error e, .error f => decidable_of_iff (e = f) (by simp)
  | .error _, .ok _ => isFalse (by simp)
  | .ok _, .error _ => isFalse (by simp)
  | .ok a, .ok b => decidable_of_iff (a = b) (by simp)

/-- Rust `char::is_whitespace`: the Unicode `White_Space` property, used by
`str::trim`. -/
def isRustWhitespace (c : Char) : Bool :=
  let n := c.toNat
  n = 0x20 || n = 0x09 || n = 0x0a || n = 0x0d || n = 0x0b || n = 0x0c ||
  n = 0x85 || n = 0xa0 || n = 0x1680 || (0x2000 ≤ n && n ≤ 0x200a) ||
  n = 0x2028 || n = 0x2029 || n = 0x202f || n = 0x205f || n = 0x3000

/-- Remove the maximal whitespace run at the front (Rust `str::trim_start`). -/
def trimLeft (cs : List Char) : List Char :=
  cs.dropWhile isRustWhitespace

/-- Remove the maximal whitespace run at the back (Rust `str::trim_end`). -/
def trimRight (cs : List Char) : List Char :=
  (cs.reverse.dropWhile isRustWhitespace).reverse

/-- Rust `str::trim`: whitespace removed from both ends. -/
def trim (cs : List Char) : List Char :=
  trimRight (trimLeft cs)

/-- Split a line at its first `=` (Rust `line.find('=')` followed by the two
byte slices `&line[..pos]` and `&line[pos + 1..]`; `=` is one byte, so the
byte split coincides with this character split).  Returns `none` when the
line has no `=`. -/
def splitEq : List Char → Option (List Char × List Char)
  | [] => none
  | c :: cs =>
    if c = '=' then some ([], cs)
    else (splitEq cs).map (fun p => (c :: p.1, p.2))

/-- The five `anyhow::bail!` cases of `Cipher::from_file`, each carrying the
1-indexed line number (`line_number + 1` in the source) and, as in the
source's messages, the trimmed line or the offending character. -/
inductive ParseErr where
  | missingSeparator (lineNumber : Nat) (line : List Char)
  | emptyKey (lineNumber : Nat) (line : List Char)
  | emptyValue (lineNumber : Nat) (line : List Char)
  | duplicateKey (lineNumber : Nat) (c : Char)
  | duplicateValue (lineNumber : Nat) (c : Char)
  deriving Repr, DecidableEq

/-- The two tables held by a `Cipher` value. -/
structure Cipher where
  encrypt_map : List (Char × Char)
  decrypt_map : List (Char × Char)
  deriving Repr, DecidableEq

/-- `HashMap::get` on the association-list model. -/
def lookup (m : List (Char × Char)) (c : Char) : Option Char :=
  (m.find? (fun p => p.1 = c)).map Prod.snd

/-- `HashMap::contains_key` on the association-list model. -/
def containsKey (m : List (Char × Char)) (c : Char) : Bool :=
  (m.find? (fun p => p.1 = c)).isSome

/-- One iteration of the `for (line_number, line) in content.lines().enumerate()`
loop of `Cipher::from_file`: skip blank and `#` lines, split at the first `=`,
trim both parts, reject empty key, empty value, duplicate key, duplicate
value in that order, otherwise insert the pair into both maps. -/
def processLine (maps : List (Char × Char) × List (Char × Char))
    (line_number : Nat) (rawLine : List Char) :
    Except ParseErr (List (Char × Char) × List (Char × Char)) :=
  let line := trim rawLine
  if line.isEmpty ∨ line.head? = some '#' then
    .ok maps
  else
    match splitEq line with
    | none => .error (.missingSeparator (line_number + 1) line)
    | some (beforeEq, afterEq) =>
      let key_part := trim beforeEq
      let value_part := trim afterEq
      if key_part.isEmpty then
        .error (.emptyKey (line_number + 1) line)
      else if value_part.isEmpty then
        .error (.emptyValue (line_number + 1) line)
      else
        let original := key_part.headI
        let substituted := value_part.headI
        if containsKey maps.1 original then
          .error (.duplicateKey (line_number + 1) original)
        else if containsKey maps.2 substituted then
          .error (.duplicateValue (line_number + 1) substituted)
        else
          .ok (maps.1 ++ [(original, substituted)], maps.2 ++ [(substituted, original)])

/-- The loop of `Cipher::from_file`, threading the two maps and the 0-based
line index. -/
def fromLinesGo (maps : List (Char × Char) × List (Char × Char)) (n : Nat) :
    List (List Char) → Except ParseErr (List (Char × Char) × List (Char × Char))
  | [] => .ok maps
  | l :: ls =>
    match processLine maps n l with
    | .error e => .error e
    | .ok maps' => fromLinesGo maps' (n + 1) ls

/-- `Cipher::from_file` applied to the already-split lines of the mapping
file (the `fs::read_to_string` call is I/O glue outside the core). -/
def fromLines (ls : List (List Char)) : Except ParseErr Cipher :=
  match fromLinesGo ([], []) 0 ls with
  | .error e => .error e
  | .ok maps => .ok ⟨maps.1, maps.2⟩

/-- Helper for `rustLines`: split a character list at every newline,
keeping empty segments. -/
def splitLinesAux : List Char → List Char → List (List Char)
  | [], acc => [acc.reverse]
  | c :: rest, acc =>
    if c = '\n' then acc.reverse :: splitLinesAux rest []
    else splitLinesAux rest (c :: acc)

/-- Rust `str::lines()`: split at `\n`, drop a final empty segment produced
by a trailing newline, and strip one trailing `\r` from each line. -/
def rustLines (content : List Char) : List (List Char) :=
  let parts := splitLinesAux content []
  let parts := if parts.getLast? = some [] then parts.dropLast else parts
  parts.map (fun l => if l.getLast? = some '\r' then l.dropLast else l)

/-- `Cipher::from_file` on the raw content of the mapping file. -/
def parse (content : String) : Except ParseErr Cipher :=
  fromLines (rustLines content.toList)

/-- `Cipher::encrypt`: substitute each character by its `encrypt_map` image,
or itself when unmapped (`unwrap_or(&c)`). -/
def encrypt (ci : Cipher) (text : List Char) : List Char :=
  text.map (fun c => (lookup ci.encrypt_map c).getD c)

/-- `Cipher::decrypt`: same as `encrypt` with `decrypt_map`. -/
def decrypt (ci : Cipher) (text : List Char) : List Char :=
  text.map (fun c => (lookup ci.decrypt_map c).getD c)

/-! Spec-side description of the parser's error behaviour, for claim C3.
It follows the claim's words: scanning lines in order, a non-blank
non-comment line errs when it has no `=`, an empty trimmed key, an empty
trimmed value, a first key character already used as a key on an earlier
line, or a first value character already used as a value on an earlier
line; the reported line number is the 1-indexed position. -/

/-- The outcome of one line under C3's description, given the key characters
and value characters used by earlier lines.  The key substring is everything
before the first `=` of the trimmed line (`takeWhile`), the value substring
everything after it (`dropWhile` and one `tail`). -/
def specStep (used : List Char × List Char) (i : Nat) (raw : List Char) :
    Except ParseErr (List Char × List Char) :=
  let line := trim raw
  if line = [] ∨ line.head? = some '#' then
    .ok used
  else if '=' ∉ line then
    .error (.missingSeparator (i + 1) line)
  else
    let keySub := trim (line.takeWhile (fun c => c ≠ '='))
    let valSub := trim ((line.dropWhile (fun c => c ≠ '=')).tail)
    if keySub = [] then .error (.emptyKey (i + 1) line)
    else if valSub = [] then .error (.emptyValue (i + 1) line)
    else if keySub.headI ∈ used.1 then .error (.duplicateKey (i + 1) keySub.headI)
    else if valSub.headI ∈ used.2 then .error (.duplicateValue (i + 1) valSub.headI)
    else .ok (used.1 ++ [keySub.headI], used.2 ++ [valSub.headI])

/-- The first error of the scan described by C3, or `none` when every line
passes. -/
def firstErrorGo (used : List Char × List Char) (i : Nat) :
    List (List Char) → Option ParseErr
  | [] => none
  | l :: ls =>
    match specStep used i l with
    | .error e => some e
    | .ok used' => firstErrorGo used' (i + 1) ls

/-- The first error, per C3's description, of a whole specification. -/
def firstError (ls : List (List Char)) : Option ParseErr :=
  firstErrorGo ([], []) 0 ls

/-- The table invariant maintained by the parsing loop: the inverse map is
exactly the forward map with every pair swapped, and both the keys and the
values of the forward map are pairwise distinct. -/
def Inv (em dm : List (Char × Char)) : Prop :=
  dm = em.map (fun p => (p.2, p.1)) ∧
  (em.map Prod.fst).Nodup ∧ (em.map Prod.snd).Nodup

/-! Helper lemmas about the association-list model of `HashMap`. -/

/-- `lookup` misses exactly the characters that are not keys. -/
theorem lookup_eq_none {m : List (Char × Char)} {c : Char} :
    lookup m c = none ↔ c ∉ m.map Prod.fst := by
  induction m with
  | nil => simp [lookup]
  | cons hd tl ih =>
    by_cases h : hd.1 = c
    · subst h
      rw [lookup, List.find?_cons_of_pos _ (by simp)]
      simp
    · have hskip : lookup (hd :: tl) c = lookup tl c := by
        rw [lookup, lookup, List.find?_cons_of_neg _ (by simpa using h)]
      rw [hskip, ih]
      simp only [List.map_cons, List.mem_cons, not_or]
      exact (and_iff_right fun hc => h hc.symm).symm

/-- `contains_key` is the success of `lookup`. -/
theorem containsKey_eq_isSome {m : List (Char × Char)} {c : Char} :
    containsKey m c = (lookup m c).isSome := by
  rw [containsKey, lookup]
  cases m.find? (fun p => p.1 = c) <;> rfl

/-- `contains_key` holds exactly for the keys. -/
theorem containsKey_iff {m : List (Char × Char)} {c : Char} :
    containsKey m c = true ↔ c ∈ m.map Prod.fst := by
  rw [containsKey_eq_isSome, Option.isSome_iff_ne_none]
  exact (not_iff_not.mpr lookup_eq_none).trans not_not

/-- A successful `lookup` returns a pair of the list. -/
theorem lookup_mem {m : List (Char × Char)} {c b : Char}
    (h : lookup m c = some b) : (c, b) ∈ m := by
  simp only [lookup, Option.map_eq_some'] at h
  obtain ⟨p, hp, rfl⟩ := h
  have hpc : p.1 = c := by simpa using List.find?_some hp
  have := List.mem_of_find?_eq_some hp
  rwa [← hpc]

/-- When the keys are pairwise distinct, `lookup` finds the unique pair with
the sought key. -/
theorem lookup_of_mem_nodup {m : List (Char × Char)} {c b : Char}
    (hnd : (m.map Prod.fst).Nodup) (hmem : (c, b) ∈ m) : lookup m c = some b := by
  induction m with
  | nil => cases hmem
  | cons hd tl ih =>
    simp only [List.map_cons, List.nodup_cons] at hnd
    rcases List.mem_cons.mp hmem with rfl | htl
    · simp [lookup, List.find?]
    · have hne : hd.1 ≠ c := fun h =>
        hnd.1 (h ▸ List.mem_map.mpr ⟨(c, b), htl, rfl⟩)
      simpa [lookup, List.find?, hne] using ih hnd.2 htl

/-! Helper lemmas about `trim` and `splitEq`. -/

/-- The head of a non-empty `dropWhile` residue fails the predicate. -/
theorem headI_dropWhile_not (p : Char → Bool) :
    ∀ xs : List Char, xs.dropWhile p ≠ [] → p ((xs.dropWhile p).headI) = false
  | [], h => absurd rfl h
  | c :: cs, h => by
    rw [List.dropWhile_cons] at h ⊢
    by_cases hc : p c = true
    · rw [if_pos hc] at h ⊢
      exact headI_dropWhile_not p cs h
    · rw [if_neg hc] at h ⊢
      show p c = false
      simpa using hc

/-- `trimRight` keeps a prefix of its argument. -/
theorem trimRight_append (y : List Char) :
    y = trimRight y ++ (y.reverse.takeWhile isRustWhitespace).reverse := by
  conv_lhs => rw [← y.reverse_reverse,
    ← List.takeWhile_append_dropWhile isRustWhitespace y.reverse]
  rw [List.reverse_append, trimRight]

/-- A non-empty `trimRight` keeps the original head. -/
theorem trimRight_headI {y : List Char} (h : trimRight y ≠ []) :
    (trimRight y).headI = y.headI := by
  cases htr : trimRight y with
  | nil => exact absurd htr h
  | cons r rs =>
    conv_rhs => rw [trimRight_append y, htr]
    rfl

/-- Members of `trimRight y` are members of `y`. -/
theorem mem_trimRight {y : List Char} {c : Char} (h : c ∈ trimRight y) : c ∈ y := by
  have hy := trimRight_append y
  rw [hy]
  exact List.mem_append_left _ h

/-- Members of `trimLeft y` are members of `y`. -/
theorem mem_trimLeft {y : List Char} {c : Char} (h : c ∈ trimLeft y) : c ∈ y := by
  have hy := List.takeWhile_append_dropWhile isRustWhitespace y
  rw [← hy]
  exact List.mem_append_right _ h

/-- Members of a trimmed line are members of the line. -/
theorem mem_trim {y : List Char} {c : Char} (h : c ∈ trim y) : c ∈ y :=
  mem_trimLeft (mem_trimRight h)

/-- A non-empty trimmed result starts with a non-whitespace character. -/
theorem trim_headI_not_ws {x : List Char} (h : trim x ≠ []) :
    isRustWhitespace ((trim x).headI) = false := by
  have hleft : trimLeft x ≠ [] := by
    intro hx
    exact h (by rw [trim, hx]; rfl)
  rw [trim, trimRight_headI h]
  exact headI_dropWhile_not isRustWhitespace x hleft

/-- What a successful split at the first `=` returns: the line decomposes as
the part before the separator, the separator, and the part after it, and the
part before it holds no `=`. -/
theorem splitEq_some_spec :
    ∀ {l bs cs : List Char}, splitEq l = some (bs, cs) →
      l = bs ++ '=' :: cs ∧ '=' ∉ bs
  | [], _, _, h => by cases h
  | c :: l, bs, cs, h => by
    rw [splitEq] at h
    by_cases hc : c = '='
    · rw [if_pos hc] at h
      cases h
      subst hc
      exact ⟨rfl, List.not_mem_nil _⟩
    · rw [if_neg hc] at h
      cases hsp : splitEq l with
      | none => rw [hsp] at h; cases h
      | some p =>
        rw [hsp, Option.map_some'] at h
        cases h
        obtain ⟨h1, h2⟩ := splitEq_some_spec hsp
        refine ⟨by rw [List.cons_append, ← h1], ?_⟩
        intro hmem
        rcases List.mem_cons.mp hmem with heq | hmem2
        · exact hc heq.symm
        · exact h2 hmem2

/-- The split fails exactly on lines without `=`. -/
theorem splitEq_eq_none : ∀ {l : List Char}, splitEq l = none ↔ '=' ∉ l
  | [] => by simp [splitEq]
  | c :: l => by
    rw [splitEq]
    by_cases hc : c = '='
    · rw [if_pos hc]
      subst hc
      simp
    · rw [if_neg hc]
      cases hsp : splitEq l with
      | none =>
        simp only [Option.map_none', eq_self_iff_true, true_iff]
        intro hmem
        rcases List.mem_cons.mp hmem with heq | hmem2
        · exact hc heq.symm
        · exact splitEq_eq_none.mp hsp hmem2
      | some p =>
        obtain ⟨bs, cs⟩ := p
        rw [Option.map_some']
        constructor
        · intro h; cases h
        · intro h
          obtain ⟨h1, -⟩ := splitEq_some_spec hsp
          have hin : '=' ∈ l := by
            rw [h1]
            exact List.mem_append_right _ (List.mem_cons_self _ _)
          exact (h (List.mem_cons_of_mem c hin)).elim

/-- A line with an `=` splits. -/
theorem splitEq_exists {l : List Char} (h : '=' ∈ l) : ∃ p, splitEq l = some p := by
  cases hsp : splitEq l with
  | none => exact absurd h (splitEq_eq_none.mp hsp)
  | some p => exact ⟨p, rfl⟩

/-- `takeWhile` up to the first separator recovers the part before it. -/
theorem takeWhile_first_sep {bs cs : List Char} (hb : '=' ∉ bs) :
    (bs ++ '=' :: cs).takeWhile (fun c => c ≠ '=') = bs := by
  induction bs with
  | nil => rw [List.nil_append, List.takeWhile_cons, if_neg (by simp)]
  | cons x xs ih =>
    have hx : x ≠ '=' := fun h => hb (h ▸ List.mem_cons_self _ _)
    rw [List.cons_append, List.takeWhile_cons, if_pos (by simpa using hx),
      ih fun hm => hb (List.mem_cons_of_mem _ hm)]

/-- `dropWhile` up to the first separator recovers the separator and the part
after it. -/
theorem dropWhile_first_sep {bs cs : List Char} (hb : '=' ∉ bs) :
    (bs ++ '=' :: cs).dropWhile (fun c => c ≠ '=') = '=' :: cs := by
  induction bs with
  | nil => rw [List.nil_append, List.dropWhile_cons, if_neg (by simp)]
  | cons x xs ih =>
    have hx : x ≠ '=' := fun h => hb (h ▸ List.mem_cons_self _ _)
    rw [List.cons_append, List.dropWhile_cons, if_pos (by simpa using hx)]
    exact ih fun hm => hb (List.mem_cons_of_mem _ hm)

/-! The bijection invariant of the parsing loop. -/

/-- A successful `processLine` step preserves the invariant. -/
theorem processLine_ok_inv {em dm em' dm' : List (Char × Char)} {n : Nat}
    {l : List Char} (hinv : Inv em dm)
    (h : processLine (em, dm) n l = .ok (em', dm')) : Inv em' dm' := by
  simp only [processLine] at h
  split at h
  · cases h
    exact hinv
  · split at h
    · cases h
    · split at h
      · cases h
      · split at h
        · cases h
        · split at h
          · cases h
          · split at h
            · cases h
            · rename_i hsplit p beforeEq afterEq heq hk hv hdupk hdupv
              cases h
              obtain ⟨hswap, hndk, hndv⟩ := hinv
              have hko : (trim beforeEq).headI ∉ em.map Prod.fst := by
                intro hmem
                exact hdupk (containsKey_iff.mpr hmem)
              have hvo : (trim afterEq).headI ∉ em.map Prod.snd := by
                intro hmem
                refine hdupv (containsKey_iff.mpr ?_)
                rw [hswap, List.map_map]
                exact hmem
              refine ⟨?_, ?_, ?_⟩
              · rw [List.map_append, ← hswap]
                rfl
              · rw [List.map_append]
                simp [List.nodup_append, hndk, hko]
              · rw [List.map_append]
                simp [List.nodup_append, hndv, hvo]

/-- The whole parsing loop preserves the invariant. -/
theorem fromLinesGo_ok_inv (ls : List (List Char)) :
    ∀ {em dm em' dm' : List (Char × Char)} {n : Nat},
    Inv em dm → fromLinesGo (em, dm) n ls = .ok (em', dm') → Inv em' dm' := by
  induction ls with
  | nil =>
    intro em dm em' dm' n hinv h
    rw [fromLinesGo] at h
    cases h
    exact hinv
  | cons l ls ih =>
    intro em dm em' dm' n hinv h
    rw [fromLinesGo] at h
    cases hp : processLine (em, dm) n l with
    | error e => rw [hp] at h; cases h
    | ok maps' =>
      rw [hp] at h
      exact ih (processLine_ok_inv hinv hp) h

/-- Every table a successful parse returns satisfies the invariant. -/
theorem fromLines_ok_inv {ls : List (List Char)} {ci : Cipher}
    (h : fromLines ls = .ok ci) : Inv ci.encrypt_map ci.decrypt_map := by
  rw [fromLines] at h
  cases hgo : fromLinesGo ([], []) 0 ls with
  | error e => rw [hgo] at h; cases h
  | ok maps =>
    rw [hgo] at h
    cases h
    exact fromLinesGo_ok_inv ls (by refine ⟨rfl, ?_, ?_⟩ <;> simp) hgo

/-- Under the invariant, every forward pair appears swapped in the inverse
map. -/
theorem inv_mem_dm {em dm : List (Char × Char)} {a b : Char}
    (hinv : Inv em dm) (h : (a, b) ∈ em) : (b, a) ∈ dm := by
  rw [hinv.1]
  exact List.mem_map.mpr ⟨(a, b), h, rfl⟩

/-- Under the invariant, the inverse map's keys are pairwise distinct. -/
theorem inv_dm_fst_nodup {em dm : List (Char × Char)} (hinv : Inv em dm) :
    (dm.map Prod.fst).Nodup := by
  rw [hinv.1, List.map_map]
  exact hinv.2.2

/-- Under the invariant, the inverse map sends every forward image back. -/
theorem inv_lookup_swap {em dm : List (Char × Char)} {c b : Char}
    (hinv : Inv em dm) (h : lookup em c = some b) : lookup dm b = some c :=
  lookup_of_mem_nodup (inv_dm_fst_nodup hinv) (inv_mem_dm hinv (lookup_mem h))

/-- The per-character round trip: a character that is a key, or that is not a
value, comes back unchanged from substitution followed by inverse
substitution. -/
theorem roundtrip_char {em dm : List (Char × Char)} {c : Char} (hinv : Inv em dm)
    (hc : containsKey em c = true ∨ containsKey dm c = false) :
    (lookup dm ((lookup em c).getD c)).getD ((lookup em c).getD c) = c := by
  by_cases hkey : containsKey em c = true
  · obtain ⟨b, hb⟩ : ∃ b, lookup em c = some b := by
      rw [containsKey_eq_isSome] at hkey
      exact Option.isSome_iff_exists.mp hkey
    rw [hb, Option.getD_some, inv_lookup_swap hinv hb, Option.getD_some]
  · have h1 : lookup em c = none := by
      rw [containsKey_eq_isSome] at hkey
      cases ho : lookup em c with
      | none => rfl
      | some b => rw [ho] at hkey; simp at hkey
    have h2 : containsKey dm c = false := hc.resolve_left hkey
    have h3 : lookup dm c = none := by
      rw [containsKey_eq_isSome] at h2
      cases ho : lookup dm c with
      | none => rfl
      | some b => rw [ho] at h2; simp at h2
    rw [h1, Option.getD_none, h3, Option.getD_none]

/-! Agreement between the parser and C3's line-by-line description. -/

/-- One parser step agrees with one step of C3's description, where the
description's state is the list of used key characters and used value
characters, i.e. the keys of the two maps. -/
theorem specStep_eq (em dm : List (Char × Char)) (n : Nat) (l : List Char) :
    specStep (em.map Prod.fst, dm.map Prod.fst) n l =
      (processLine (em, dm) n l).map (fun m => (m.1.map Prod.fst, m.2.map Prod.fst)) := by
  simp only [specStep, processLine]
  by_cases hskip : trim l = [] ∨ (trim l).head? = some '#'
  · have hskip' : (trim l).isEmpty = true ∨ (trim l).head? = some '#' := by
      rcases hskip with h | h
      · exact Or.inl (List.isEmpty_iff.mpr h)
      · exact Or.inr h
    rw [if_pos hskip, if_pos hskip']
    rfl
  · have hskip' : ¬((trim l).isEmpty = true ∨ (trim l).head? = some '#') := by
      intro hx
      rcases hx with h | h
      · exact hskip (Or.inl (List.isEmpty_iff.mp h))
      · exact hskip (Or.inr h)
    rw [if_neg hskip, if_neg hskip']
    cases hsp : splitEq (trim l) with
    | none =>
      rw [if_pos (splitEq_eq_none.mp hsp)]
      rfl
    | some p =>
      obtain ⟨bs, cs⟩ := p
      obtain ⟨hdec, hnb⟩ := splitEq_some_spec hsp
      have hmem : '=' ∈ trim l := by
        rw [hdec]
        exact List.mem_append_right _ (List.mem_cons_self _ _)
      rw [if_neg (not_not.mpr hmem)]
      dsimp only
      have ht : (trim l).takeWhile (fun c => c ≠ '=') = bs := by
        rw [hdec]
        exact takeWhile_first_sep hnb
      have hd : ((trim l).dropWhile (fun c => c ≠ '=')).tail = cs := by
        rw [hdec, dropWhile_first_sep hnb]
        rfl
      rw [ht, hd]
      by_cases hke : trim bs = []
      · rw [if_pos hke, if_pos (List.isEmpty_iff.mpr hke)]
        rfl
      · rw [if_neg hke, if_neg (fun hx => hke (List.isEmpty_iff.mp hx))]
        by_cases hve : trim cs = []
        · rw [if_pos hve, if_pos (List.isEmpty_iff.mpr hve)]
          rfl
        · rw [if_neg hve, if_neg (fun hx => hve (List.isEmpty_iff.mp hx))]
          by_cases hdk : (trim bs).headI ∈ em.map Prod.fst
          · rw [if_pos hdk, if_pos (containsKey_iff.mpr hdk)]
            rfl
          · rw [if_neg hdk, if_neg (fun hx => hdk (containsKey_iff.mp hx))]
            by_cases hdv : (trim cs).headI ∈ dm.map Prod.fst
            · rw [if_pos hdv, if_pos (containsKey_iff.mpr hdv)]
              rfl
            · rw [if_neg hdv, if_neg (fun hx => hdv (containsKey_iff.mp hx))]
              simp [Except.map, List.map_append]

/-- The whole scan agrees with the parsing loop: same first error, and no
error exactly on success. -/
theorem firstErrorGo_eq (ls : List (List Char)) :
    ∀ (em dm : List (Char × Char)) (n : Nat),
    firstErrorGo (em.map Prod.fst, dm.map Prod.fst) n ls =
      match fromLinesGo (em, dm) n ls with
      | .error e => some e
      | .ok _ => none := by
  induction ls with
  | nil => intro em dm n; rfl
  | cons l ls ih =>
    intro em dm n
    rw [firstErrorGo, fromLinesGo, specStep_eq]
    cases hp : processLine (em, dm) n l with
    | error e => rfl
    | ok maps' =>
      show firstErrorGo (maps'.1.map Prod.fst, maps'.2.map Prod.fst) (n + 1) ls = _
      exact ih maps'.1 maps'.2 (n + 1)

/-- Substitution followed by inverse substitution is the identity on texts
whose characters are each a key of the forward map or not a key of the
inverse map. -/
theorem roundtrip_text {em dm : List (Char × Char)} (hinv : Inv em dm) :
    ∀ text : List Char,
      (∀ c ∈ text, containsKey em c = true ∨ containsKey dm c = false) →
      (text.map fun c => (lookup em c).getD c).map
        (fun c => (lookup dm c).getD c) = text
  | [], _ => rfl
  | c :: cs, htext => by
    show (lookup dm ((lookup em c).getD c)).getD ((lookup em c).getD c) ::
      (cs.map fun c => (lookup em c).getD c).map
        (fun c => (lookup dm c).getD c) = c :: cs
    rw [roundtrip_char hinv (htext c (List.mem_cons_self _ _)),
      roundtrip_text hinv cs (fun y hy => htext y (List.mem_cons_of_mem _ hy))]

/-! The claims. -/

/-- C1, amended: over a table produced by a successful parse,
`decrypt (encrypt text) = text` holds for every text whose characters are
each either a key of the forward map or not a value of it (not a key of the
inverse map).  The claim's unrestricted quantification over all texts fails:
see the counterexample `roundtrip_fails_on_unmapped_image`. -/
theorem roundtrip_requires_key_or_unmapped
    (ls : List (List Char)) (ci : Cipher) (text : List Char)
    (h : fromLines ls = .ok ci)
    (htext : ∀ c ∈ text, containsKey ci.encrypt_map c = true ∨
      containsKey ci.decrypt_map c = false) :
    decrypt ci (encrypt ci text) = text :=
  roundtrip_text (fromLines_ok_inv h) text htext

/-- C1, witness: the amended round trip at the parsed table a→b and the
text "az" ('a' a key, 'z' unmapped). -/
theorem roundtrip_requires_key_or_unmapped_witness :
    decrypt ⟨[('a', 'b')], [('b', 'a')]⟩
      (encrypt ⟨[('a', 'b')], [('b', 'a')]⟩ ['a', 'z']) = ['a', 'z'] :=
  roundtrip_requires_key_or_unmapped [['a', '=', 'b']]
    ⟨[('a', 'b')], [('b', 'a')]⟩ ['a', 'z'] (by decide) (by decide)

/-- C1, counterexample to the claim as stated: the specification "a=b"
parses, yet the single-character text "b" does not round-trip — 'b' passes
through `encrypt` unchanged and is then mapped to 'a' by `decrypt`. -/
theorem roundtrip_fails_on_unmapped_image :
    fromLines [['a', '=', 'b']] = .ok ⟨[('a', 'b')], [('b', 'a')]⟩ ∧
    decrypt ⟨[('a', 'b')], [('b', 'a')]⟩
      (encrypt ⟨[('a', 'b')], [('b', 'a')]⟩ ['b']) ≠ ['b'] := by
  decide

/-- C2: over a table produced by a successful parse, every character present
as a key of the forward map round-trips through `decrypt ∘ encrypt` on its
single-character text, and symmetrically every character present as a value
of the forward map round-trips through `encrypt ∘ decrypt`. -/
theorem bijection_invariant_single_char (ls : List (List Char)) (ci : Cipher)
    (h : fromLines ls = .ok ci) :
    (∀ c, containsKey ci.encrypt_map c = true →
      decrypt ci (encrypt ci [c]) = [c]) ∧
    (∀ v, v ∈ ci.encrypt_map.map Prod.snd →
      encrypt ci (decrypt ci [v]) = [v]) := by
  have hinv := fromLines_ok_inv h
  constructor
  · intro c hc
    show [(lookup ci.decrypt_map ((lookup ci.encrypt_map c).getD c)).getD
      ((lookup ci.encrypt_map c).getD c)] = [c]
    rw [roundtrip_char hinv (Or.inl hc)]
  · intro v hv
    obtain ⟨p, hp, hps⟩ := List.mem_map.mp hv
    obtain ⟨a, v'⟩ := p
    subst hps
    have hem : lookup ci.encrypt_map a = some v' :=
      lookup_of_mem_nodup hinv.2.1 hp
    have hdm : lookup ci.decrypt_map v' = some a :=
      lookup_of_mem_nodup (inv_dm_fst_nodup hinv) (inv_mem_dm hinv hp)
    show [(lookup ci.encrypt_map ((lookup ci.decrypt_map v').getD v')).getD
      ((lookup ci.decrypt_map v').getD v')] = [v']
    rw [hdm, Option.getD_some, hem, Option.getD_some]

/-- C2, witness: the single-character round trips at the parsed table a→b. -/
theorem bijection_invariant_single_char_witness :
    (∀ c, containsKey (Cipher.mk [('a', 'b')] [('b', 'a')]).encrypt_map c = true →
      decrypt (Cipher.mk [('a', 'b')] [('b', 'a')])
        (encrypt (Cipher.mk [('a', 'b')] [('b', 'a')]) [c]) = [c]) ∧
    (∀ v, v ∈ (Cipher.mk [('a', 'b')] [('b', 'a')]).encrypt_map.map Prod.snd →
      encrypt (Cipher.mk [('a', 'b')] [('b', 'a')])
        (decrypt (Cipher.mk [('a', 'b')] [('b', 'a')]) [v]) = [v]) :=
  bijection_invariant_single_char [['a', '=', 'b']]
    (Cipher.mk [('a', 'b')] [('b', 'a')]) (by decide)

/-- C3: parsing fails exactly when the line-by-line scan of the claim finds
an error — scanning lines in order with their 1-indexed numbers, a non-blank
non-comment line with no `=`, an empty trimmed key, an empty trimmed value,
a first key character already used as a key on an earlier line, or a first
value character already used as a value on an earlier line — the reported
error is the scan's first, and a parse that fails returns no table. -/
theorem parse_error_iff_first_bad_line (ls : List (List Char)) :
    (∀ e, fromLines ls = .error e ↔ firstError ls = some e) ∧
    ((∃ ci, fromLines ls = .ok ci) ↔ firstError ls = none) := by
  have key : firstErrorGo ([], []) 0 ls =
      match fromLinesGo (([] : List (Char × Char)),
          ([] : List (Char × Char))) 0 ls with
      | .error e => some e
      | .ok _ => none := firstErrorGo_eq ls [] [] 0
  constructor
  · intro e
    rw [fromLines, firstError, key]
    cases fromLinesGo ([], []) 0 ls <;> simp
  · rw [fromLines, firstError, key]
    cases fromLinesGo ([], []) 0 ls <;> simp

/-- C4: every table produced by a successful parse has pairwise-distinct
forward keys, pairwise-distinct forward values, and an inverse map that is
exactly the forward map with every pair swapped — no other pairs. -/
theorem table_bijection_invariant (ls : List (List Char)) (ci : Cipher)
    (h : fromLines ls = .ok ci) :
    (ci.encrypt_map.map Prod.fst).Nodup ∧
    (ci.encrypt_map.map Prod.snd).Nodup ∧
    ci.decrypt_map = ci.encrypt_map.map (fun p => (p.2, p.1)) := by
  obtain ⟨hswap, hk, hv⟩ := fromLines_ok_inv h
  exact ⟨hk, hv, hswap⟩

/-- C4, witness: the invariant at the table parsed from "a=x", "b=y". -/
theorem table_bijection_invariant_witness :
    ((Cipher.mk [('a', 'x'), ('b', 'y')]
        [('x', 'a'), ('y', 'b')]).encrypt_map.map Prod.fst).Nodup ∧
    ((Cipher.mk [('a', 'x'), ('b', 'y')]
        [('x', 'a'), ('y', 'b')]).encrypt_map.map Prod.snd).Nodup ∧
    (Cipher.mk [('a', 'x'), ('b', 'y')] [('x', 'a'), ('y', 'b')]).decrypt_map =
      (Cipher.mk [('a', 'x'), ('b', 'y')]
        [('x', 'a'), ('y', 'b')]).encrypt_map.map (fun p => (p.2, p.1)) :=
  table_bijection_invariant [['a', '=', 'x'], ['b', '=', 'y']]
    (Cipher.mk [('a', 'x'), ('b', 'y')] [('x', 'a'), ('y', 'b')]) (by decide)

/-- C5: for every table and every text (the empty text included) both
`encrypt` and `decrypt` preserve the character count, and the character at
every position of the output is the substitute of the character at the same
position of the input. -/
theorem length_and_position_preservation (ci : Cipher) (text : List Char) :
    ((encrypt ci text).length = text.length ∧
      (decrypt ci text).length = text.length) ∧
    ∀ i : Nat,
      (encrypt ci text)[i]? =
        text[i]?.map (fun c => (lookup ci.encrypt_map c).getD c) ∧
      (decrypt ci text)[i]? =
        text[i]?.map (fun c => (lookup ci.decrypt_map c).getD c) := by
  refine ⟨⟨?_, ?_⟩, fun i => ⟨?_, ?_⟩⟩ <;>
    simp [encrypt, decrypt, List.getElem?_map]

/-- C6: at every position, `encrypt` replaces a character that is a key of
the forward map by its image and leaves any other character unchanged;
`decrypt` does the same with the inverse map.  Both are total functions of
the table and the text. -/
theorem substitution_pointwise (ci : Cipher) (text : List Char) (i : Nat)
    (c : Char) (hc : text[i]? = some c) :
    (∀ b, lookup ci.encrypt_map c = some b → (encrypt ci text)[i]? = some b) ∧
    (lookup ci.encrypt_map c = none → (encrypt ci text)[i]? = some c) ∧
    (∀ b, lookup ci.decrypt_map c = some b → (decrypt ci text)[i]? = some b) ∧
    (lookup ci.decrypt_map c = none → (decrypt ci text)[i]? = some c) := by
  refine ⟨fun b hb => ?_, fun hn => ?_, fun b hb => ?_, fun hn => ?_⟩
  · simp [encrypt, List.getElem?_map, hc, hb]
  · simp [encrypt, List.getElem?_map, hc, hn]
  · simp [decrypt, List.getElem?_map, hc, hb]
  · simp [decrypt, List.getElem?_map, hc, hn]

/-- C6, witness: the pointwise behaviour at the table a→b, text "az",
position 0. -/
theorem substitution_pointwise_witness :
    (∀ b, lookup (Cipher.mk [('a', 'b')] [('b', 'a')]).encrypt_map 'a' = some b →
      (encrypt (Cipher.mk [('a', 'b')] [('b', 'a')]) ['a', 'z'])[0]? = some b) ∧
    (lookup (Cipher.mk [('a', 'b')] [('b', 'a')]).encrypt_map 'a' = none →
      (encrypt (Cipher.mk [('a', 'b')] [('b', 'a')]) ['a', 'z'])[0]? = some 'a') ∧
    (∀ b, lookup (Cipher.mk [('a', 'b')] [('b', 'a')]).decrypt_map 'a' = some b →
      (decrypt (Cipher.mk [('a', 'b')] [('b', 'a')]) ['a', 'z'])[0]? = some b) ∧
    (lookup (Cipher.mk [('a', 'b')] [('b', 'a')]).decrypt_map 'a' = none →
      (decrypt (Cipher.mk [('a', 'b')] [('b', 'a')]) ['a', 'z'])[0]? = some 'a') :=
  substitution_pointwise (Cipher.mk [('a', 'b')] [('b', 'a')])
    ['a', 'z'] 0 'a' (by decide)

/-- C7: a line that is blank after trimming, or whose trimmed content starts
with '#', is skipped — the maps are unchanged, no error arises, and the line
counter still advances, so an error on a later line reports its original
1-indexed position; the spec's examples "# comment\n\na=b" (a single-pair
table) and an error on line 3 behind two skipped lines confirm it. -/
theorem skip_blank_and_comment_lines :
    (∀ (maps : List (Char × Char) × List (Char × Char)) (n : Nat)
        (raw : List Char) (rest : List (List Char)),
      (trim raw).isEmpty = true ∨ (trim raw).head? = some '#' →
      processLine maps n raw = .ok maps ∧
      fromLinesGo maps n (raw :: rest) = fromLinesGo maps (n + 1) rest) ∧
    parse "# comment\n\na=b" = .ok ⟨[('a', 'b')], [('b', 'a')]⟩ ∧
    parse "# comment\n\nabc" = .error (.missingSeparator 3 ['a', 'b', 'c']) := by
  refine ⟨fun maps n raw rest h => ?_, by decide, by decide⟩
  have hp : processLine maps n raw = .ok maps := by
    simp only [processLine]
    rw [if_pos h]
  refine ⟨hp, ?_⟩
  rw [fromLinesGo, hp]

/-- C8: on a rule line (a non-comment line that splits at its first `=` into
a part with a non-blank trim on each side), the parser behaves exactly as on
the three-character rule built from the first character of the trimmed key
part and the first character of the trimmed value part: same entry, same
duplicate detection, the trailing characters of both sides ignored. -/
theorem only_first_chars_significant
    (maps : List (Char × Char) × List (Char × Char)) (n : Nat)
    (l beforeEq afterEq : List Char)
    (h : splitEq (trim l) = some (beforeEq, afterEq))
    (hcomment : (trim l).head? ≠ some '#')
    (hkey : trim beforeEq ≠ []) (hval : trim afterEq ≠ []) :
    processLine maps n l =
      processLine maps n [(trim beforeEq).headI, '=', (trim afterEq).headI] := by
  obtain ⟨hdec, hnb⟩ := splitEq_some_spec h
  have hbne : beforeEq ≠ [] := by
    intro hbe
    rw [hbe] at hkey
    exact hkey rfl
  obtain ⟨x, xs, rfl⟩ : ∃ x xs, beforeEq = x :: xs := by
    cases beforeEq with
    | nil => exact absurd rfl hbne
    | cons x xs => exact ⟨x, xs, rfl⟩
  have htl : trim l = x :: (xs ++ '=' :: afterEq) := by
    rw [hdec]
    rfl
  have htlne : trim l ≠ [] := by
    rw [htl]
    exact List.cons_ne_nil _ _
  have hxw : isRustWhitespace x = false := by
    have hh := trim_headI_not_ws htlne
    rwa [htl] at hh
  have hxhash : x ≠ '#' := by
    intro hx
    exact hcomment (by rw [htl, hx]; rfl)
  have hxeq : x ≠ '=' := fun hx => hnb (hx ▸ List.mem_cons_self _ _)
  have hkb : (trim (x :: xs)).headI = x := by
    have h1 : trimLeft (x :: xs) = x :: xs := by
      rw [trimLeft, List.dropWhile_cons, if_neg (by simp [hxw])]
    have h2 : trim (x :: xs) = trimRight (x :: xs) := by
      rw [trim, h1]
    rw [h2] at hkey ⊢
    exact trimRight_headI hkey
  have hvw : isRustWhitespace ((trim afterEq).headI) = false :=
    trim_headI_not_ws hval
  obtain ⟨va, hva⟩ : ∃ va, (trim afterEq).headI = va := ⟨_, rfl⟩
  rw [hva] at hvw ⊢
  have htr2 : trim [x, '=', va] = [x, '=', va] := by
    simp [trim, trimLeft, trimRight, List.dropWhile_cons, hxw, hvw]
  have htx : trim [x] = [x] := by
    simp [trim, trimLeft, trimRight, List.dropWhile_cons, hxw]
  have htv : trim [va] = [va] := by
    simp [trim, trimLeft, trimRight, List.dropWhile_cons, hvw]
  have hse2 : splitEq [x, '=', va] = some ([x], [va]) := by
    simp [splitEq, hxeq]
  have hnc : ¬((trim l).isEmpty = true ∨ (trim l).head? = some '#') := by
    rintro (h1 | h2)
    · exact htlne (List.isEmpty_iff.mp h1)
    · exact hcomment h2
  have hncR : ¬(([x, '=', va] : List Char).isEmpty = true ∨
      ([x, '=', va] : List Char).head? = some '#') := by
    simp [hxhash]
  have hkne : ¬(trim (x :: xs)).isEmpty = true :=
    fun hx => hkey (List.isEmpty_iff.mp hx)
  have hvne : ¬(trim afterEq).isEmpty = true :=
    fun hx => hval (List.isEmpty_iff.mp hx)
  simp only [processLine, htr2, hse2, htx, htv, h, hkb, hva]
  rw [if_neg hnc, if_neg hncR, if_neg hkne, if_neg hvne]
  simp [List.headI]

/-- C8, witness: the line "ab=cd" behaves exactly as "a=c" on the empty
state. -/
theorem only_first_chars_significant_witness :
    processLine (([], []) : List (Char × Char) × List (Char × Char)) 0
        ['a', 'b', '=', 'c', 'd'] =
      processLine (([], []) : List (Char × Char) × List (Char × Char)) 0
        [(trim ['a', 'b']).headI, '=', (trim ['c', 'd']).headI] :=
  only_first_chars_significant ([], []) 0 ['a', 'b', '=', 'c', 'd']
    ['a', 'b'] ['c', 'd'] (by decide) (by decide) (by decide) (by decide)

/-- C9: on a rule line whose trimmed key part is empty, the parser reports
the empty-key error — even when the trimmed value part is also empty, as on
a line whose trimmed content is exactly "=": the empty-key check runs before
the empty-value check. -/
theorem empty_key_checked_first
    (maps : List (Char × Char) × List (Char × Char)) (n : Nat)
    (l beforeEq afterEq : List Char)
    (h : splitEq (trim l) = some (beforeEq, afterEq))
    (hcomment : (trim l).head? ≠ some '#')
    (hkey : trim beforeEq = []) :
    processLine maps n l = .error (.emptyKey (n + 1) (trim l)) := by
  obtain ⟨hdec, -⟩ := splitEq_some_spec h
  have htlne : trim l ≠ [] := by
    rw [hdec]
    simp
  have hnc : ¬((trim l).isEmpty = true ∨ (trim l).head? = some '#') := by
    rintro (h1 | h2)
    · exact htlne (List.isEmpty_iff.mp h1)
    · exact hcomment h2
  simp only [processLine, h]
  rw [if_neg hnc, if_pos (List.isEmpty_iff.mpr hkey)]

/-- C9, witness: the line " = " (empty key and empty value) errs with
empty key, not empty value. -/
theorem empty_key_checked_first_witness :
    processLine (([], []) : List (Char × Char) × List (Char × Char)) 0
        [' ', '=', ' '] =
      .error (.emptyKey 1 (trim [' ', '=', ' '])) :=
  empty_key_checked_first ([], []) 0 [' ', '=', ' '] [] []
    (by decide) (by decide) (by decide)

/-- C10: a line holding an `=` splits at the first one — the key substring
is everything before it (and holds no `=`), the value substring everything
after it, so later `=` characters belong to the value; "a=b=c" parses to the
single pair a→b. -/
theorem split_at_first_equals :
    (∀ l : List Char, '=' ∈ l →
      ∃ bs cs, splitEq l = some (bs, cs) ∧ l = bs ++ '=' :: cs ∧ '=' ∉ bs) ∧
    fromLines [['a', '=', 'b', '=', 'c']] = .ok ⟨[('a', 'b')], [('b', 'a')]⟩ := by
  refine ⟨fun l h => ?_, by decide⟩
  obtain ⟨p, hp⟩ := splitEq_exists h
  obtain ⟨bs, cs⟩ := p
  obtain ⟨h1, h2⟩ := splitEq_some_spec hp
  exact ⟨bs, cs, hp, h1, h2⟩

end Main
